import Mathlib

/-!
Verification of the binary-search repository (`src/binary_search.py`).

The source is a single Python static method `Search.binary_search_iterative`
that searches a sorted list for a target value, returning the index of some
matching element, or `-1` when no element matches.

The embedding below uses element type `Int` (a totally ordered type, as the
specification requires).  Indices are `Int`, as in Python, and list reads go
through `pyGet`, which models Python indexing including negative indices and
the `IndexError` case (as `none`), so that absence of out-of-bounds access is
an observable, provable property rather than an artifact of the embedding.
A call that would raise `IndexError` propagates `none`; a normal return of
the Python function is `some r` (with `r = -1` the not-found signal).
The Python local `mid = (low + high) // 2` is inlined at its three use sites;
Python floor division `//` by the positive constant `2` coincides with `Int`
division (`Int.ediv`) in Lean.
-/

/-- Python-style list indexing `xs[i]`: a nonnegative index reads from the
front, a negative index `i` with `-len ≤ i` reads `xs[len + i]`, and any
other index raises `IndexError`, modelled as `none`. -/
def pyGet (l : List Int) (i : Int) : Option Int :=
  if 0 ≤ i then l[i.toNat]?
  else if 0 ≤ (l.length : Int) + i then l[((l.length : Int) + i).toNat]?
  else none

/-- The `while low <= high` loop of `binary_search_iterative`, with the two
mutable bounds passed explicitly.  Mirrors the source body:
`mid = (low + high) // 2`, `mid_value = sorted_list[mid]`, then the
three-way comparison on `mid_value` and `target`. -/
def bsLoop (sorted_list : List Int) (target : Int) (low high : Int) : Option Int :=
  if h : low ≤ high then
    match pyGet sorted_list ((low + high) / 2) with
    | none => none
    | some mid_value =>
      if mid_value = target then some ((low + high) / 2)
      else if mid_value < target then bsLoop sorted_list target ((low + high) / 2 + 1) high
      else bsLoop sorted_list target low ((low + high) / 2 - 1)
  else some (-1)
termination_by (high + 1 - low).toNat
decreasing_by
  all_goals simp_wf
  all_goals omega

/-- `Search.binary_search_iterative(sorted_list, target)`:
`low = 0`, `high = len(sorted_list) - 1`, then the loop; the final
`return -1` is the `else` branch of `bsLoop`. -/
def binary_search_iterative (sorted_list : List Int) (target : Int) : Option Int :=
  bsLoop sorted_list target 0 ((sorted_list.length : Int) - 1)

/-- Number of iterations of the `while` loop of `binary_search_iterative`
(times the loop body is entered), with the same control flow as `bsLoop`. -/
def bsLoopCount (sorted_list : List Int) (target : Int) (low high : Int) : Nat :=
  if h : low ≤ high then
    match pyGet sorted_list ((low + high) / 2) with
    | none => 1
    | some mid_value =>
      if mid_value = target then 1
      else if mid_value < target then bsLoopCount sorted_list target ((low + high) / 2 + 1) high + 1
      else bsLoopCount sorted_list target low ((low + high) / 2 - 1) + 1
  else 0
termination_by (high + 1 - low).toNat
decreasing_by
  all_goals simp_wf
  all_goals omega

/-- The loop of the specification's design-level algorithm, stated in the
spec's own words: the same bounds, comparisons and updates, but with the
midpoint written in the spec's overflow-guarded form `low + (high - low) / 2`. -/
def bsLoopSpec (sorted_list : List Int) (target : Int) (low high : Int) : Option Int :=
  if h : low ≤ high then
    match pyGet sorted_list (low + (high - low) / 2) with
    | none => none
    | some mid_value =>
      if mid_value = target then some (low + (high - low) / 2)
      else if mid_value < target then bsLoopSpec sorted_list target (low + (high - low) / 2 + 1) high
      else bsLoopSpec sorted_list target low (low + (high - low) / 2 - 1)
  else some (-1)
termination_by (high + 1 - low).toNat
decreasing_by
  all_goals simp_wf
  all_goals omega

/-- The specification's algorithm: full-range initial bounds, then the loop. -/
def binary_search_spec (sorted_list : List Int) (target : Int) : Option Int :=
  bsLoopSpec sorted_list target 0 ((sorted_list.length : Int) - 1)

/-- The loop of `binary_search_iterative` with the sequence threaded as
explicit state: each branch answers with the sequence as the loop body leaves
it.  The body only reads by index and never assigns into the sequence, so
each branch returns the state it received. -/
def bsLoopS (target : Int) (low high : Int) (s : List Int) : Option Int × List Int :=
  if h : low ≤ high then
    match pyGet s ((low + high) / 2) with
    | none => (none, s)
    | some mid_value =>
      if mid_value = target then (some ((low + high) / 2), s)
      else if mid_value < target then bsLoopS target ((low + high) / 2 + 1) high s
      else bsLoopS target low ((low + high) / 2 - 1) s
  else (some (-1), s)
termination_by (high + 1 - low).toNat
decreasing_by
  all_goals simp_wf
  all_goals omega

/-- `binary_search_iterative` with the sequence as explicit state: the call
returns its result together with the sequence as it stands after the call. -/
def binary_searchS (sorted_list : List Int) (target : Int) : Option Int × List Int :=
  bsLoopS target 0 ((sorted_list.length : Int) - 1) sorted_list

/-! ## Helper lemmas -/

theorem pyGet_inbounds (l : List Int) (i : Int) (h0 : 0 ≤ i)
    (hi : i < (l.length : Int)) :
    ∃ hlt : i.toNat < l.length, pyGet l i = some (l.get ⟨i.toNat, hlt⟩) := by
  have hlt : i.toNat < l.length := by omega
  refine ⟨hlt, ?_⟩
  simp [pyGet, h0, List.getElem?_eq_getElem hlt]

/-- Soundness of the loop, with no sortedness assumption: from in-range
bounds the loop returns normally (never raises `IndexError`), with either
the not-found signal `-1` or an index inside `[low, high]` whose element
equals the target. -/
theorem bsLoop_sound (sorted_list : List Int) (target : Int) :
    ∀ low high : Int, 0 ≤ low → high < (sorted_list.length : Int) →
      ∃ r, bsLoop sorted_list target low high = some r ∧
        (r = -1 ∨ (low ≤ r ∧ r ≤ high ∧ sorted_list[r.toNat]? = some target)) := by
  intro low high
  induction low, high using bsLoop.induct sorted_list target with
  | case1 low high h hget =>
    intro hlo hhi
    obtain ⟨hlt, hsome⟩ := pyGet_inbounds sorted_list ((low + high) / 2)
      (by omega) (by omega)
    rw [hsome] at hget
    exact absurd hget (by simp)
  | case2 low high h hget =>
    intro hlo hhi
    obtain ⟨hlt, hsome⟩ := pyGet_inbounds sorted_list ((low + high) / 2)
      (by omega) (by omega)
    refine ⟨(low + high) / 2, ?_, Or.inr ⟨by omega, by omega, ?_⟩⟩
    · rw [bsLoop]
      simp [h, hget]
    · rw [hsome] at hget
      rw [List.getElem?_eq_getElem hlt]
      simpa using hget
  | case3 low high h mid_value hget hne hlt ih =>
    intro hlo hhi
    obtain ⟨r, hr, hcase⟩ := ih (by omega) hhi
    refine ⟨r, ?_, ?_⟩
    · rw [bsLoop]
      simp only [h, ↓reduceDIte, hget, hne, ↓reduceIte, hlt]
      exact hr
    · rcases hcase with hc | ⟨h1, h2, h3⟩
      · exact Or.inl hc
      · exact Or.inr ⟨by omega, h2, h3⟩
  | case4 low high h mid_value hget hne hge ih =>
    intro hlo hhi
    obtain ⟨r, hr, hcase⟩ := ih hlo (by omega)
    refine ⟨r, ?_, ?_⟩
    · rw [bsLoop]
      simp only [h, ↓reduceDIte, hget, hne, ↓reduceIte, hge]
      exact hr
    · rcases hcase with hc | ⟨h1, h2, h3⟩
      · exact Or.inl hc
      · exact Or.inr ⟨h1, by omega, h3⟩
  | case5 low high h =>
    intro hlo hhi
    refine ⟨-1, ?_, Or.inl rfl⟩
    rw [bsLoop]
    simp [h]

/-- Completeness of the loop on sorted lists: if the target occurs at an
index inside `[low, high]` and the bounds are in range, the loop returns an
in-range index whose element equals the target. -/
theorem bsLoop_complete (sorted_list : List Int) (target : Int)
    (hs : sorted_list.Sorted (· ≤ ·)) :
    ∀ low high : Int, 0 ≤ low → high < (sorted_list.length : Int) →
      (∃ i : Nat, ∃ hi : i < sorted_list.length, low ≤ (i : Int) ∧ (i : Int) ≤ high ∧
        sorted_list.get ⟨i, hi⟩ = target) →
      ∃ j, bsLoop sorted_list target low high = some j ∧ 0 ≤ j ∧
        j < (sorted_list.length : Int) ∧ sorted_list[j.toNat]? = some target := by
  intro low high
  induction low, high using bsLoop.induct sorted_list target with
  | case1 low high h hget =>
    intro hlo hhi _
    obtain ⟨hlt, hsome⟩ := pyGet_inbounds sorted_list ((low + high) / 2)
      (by omega) (by omega)
    rw [hsome] at hget
    exact absurd hget (by simp)
  | case2 low high h hget =>
    intro hlo hhi _
    obtain ⟨hlt, hsome⟩ := pyGet_inbounds sorted_list ((low + high) / 2)
      (by omega) (by omega)
    refine ⟨(low + high) / 2, ?_, by omega, by omega, ?_⟩
    · rw [bsLoop]
      simp [h, hget]
    · rw [hsome] at hget
      rw [List.getElem?_eq_getElem hlt]
      simpa using hget
  | case3 low high h mid_value hget hne hlt ih =>
    intro hlo hhi hex
    obtain ⟨i, hi, hil, hih, hit⟩ := hex
    obtain ⟨hmlt, hsome⟩ := pyGet_inbounds sorted_list ((low + high) / 2)
      (by omega) (by omega)
    have hmv : sorted_list.get ⟨((low + high) / 2).toNat, hmlt⟩ = mid_value := by
      rw [hsome] at hget
      simpa using hget
    have hgt : ((low + high) / 2).toNat < i := by
      by_contra hcon
      have hle : sorted_list.get ⟨i, hi⟩ ≤ sorted_list.get ⟨((low + high) / 2).toNat, hmlt⟩ :=
        hs.rel_get_of_le (by simpa using Nat.le_of_not_lt hcon)
      rw [hit, hmv] at hle
      omega
    obtain ⟨j, hj, hj0, hjl, hjt⟩ := ih (by omega) hhi ⟨i, hi, by omega, hih, hit⟩
    refine ⟨j, ?_, hj0, hjl, hjt⟩
    rw [bsLoop]
    simp only [h, ↓reduceDIte, hget, hne, ↓reduceIte, hlt]
    exact hj
  | case4 low high h mid_value hget hne hge ih =>
    intro hlo hhi hex
    obtain ⟨i, hi, hil, hih, hit⟩ := hex
    obtain ⟨hmlt, hsome⟩ := pyGet_inbounds sorted_list ((low + high) / 2)
      (by omega) (by omega)
    have hmv : sorted_list.get ⟨((low + high) / 2).toNat, hmlt⟩ = mid_value := by
      rw [hsome] at hget
      simpa using hget
    have hgt : i < ((low + high) / 2).toNat := by
      by_contra hcon
      have hle : sorted_list.get ⟨((low + high) / 2).toNat, hmlt⟩ ≤ sorted_list.get ⟨i, hi⟩ :=
        hs.rel_get_of_le (by simpa using Nat.le_of_not_lt hcon)
      rw [hit, hmv] at hle
      omega
    obtain ⟨j, hj, hj0, hjl, hjt⟩ := ih hlo (by omega) ⟨i, hi, hil, by omega, hit⟩
    refine ⟨j, ?_, hj0, hjl, hjt⟩
    rw [bsLoop]
    simp only [h, ↓reduceDIte, hget, hne, ↓reduceIte, hge]
    exact hj
  | case5 low high h =>
    intro hlo hhi hex
    obtain ⟨i, hi, hil, hih, hit⟩ := hex
    omega

theorem bsLoopCount_stop (sorted_list : List Int) (target : Int) (low high : Int)
    (h : ¬ low ≤ high) : bsLoopCount sorted_list target low high = 0 := by
  rw [bsLoopCount]
  exact dif_neg h

/-- Each iteration that neither matches nor errors shrinks the interval to at
most half its size, so the iteration count is at most `⌊log₂ size⌋ + 1`. -/
theorem bsLoopCount_le (sorted_list : List Int) (target : Int) :
    ∀ low high : Int, bsLoopCount sorted_list target low high ≤
      Nat.log2 (high + 1 - low).toNat + 1 := by
  intro low high
  induction low, high using bsLoopCount.induct sorted_list target with
  | case1 low high h hget =>
    rw [bsLoopCount]
    simp only [h, ↓reduceDIte, hget]
    omega
  | case2 low high h hget =>
    rw [bsLoopCount]
    simp only [h, ↓reduceDIte, hget, ↓reduceIte]
    omega
  | case3 low high h mid_value hget hne hlt ih =>
    rw [bsLoopCount]
    simp only [h, ↓reduceDIte, hget, hne, ↓reduceIte, hlt]
    rcases Nat.lt_or_ge (high + 1 - low).toNat 2 with hs | hs
    · have hz : bsLoopCount sorted_list target ((low + high) / 2 + 1) high = 0 :=
        bsLoopCount_stop sorted_list target _ high (by omega)
      rw [hz]
      omega
    · have hhalf : (high + 1 - ((low + high) / 2 + 1)).toNat ≤
          (high + 1 - low).toNat / 2 := by omega
      have hmono : Nat.log 2 (high + 1 - ((low + high) / 2 + 1)).toNat ≤
          Nat.log 2 ((high + 1 - low).toNat / 2) := Nat.log_mono_right hhalf
      have hdiv := Nat.log_div_base 2 (high + 1 - low).toNat
      have hpos : 0 < Nat.log 2 (high + 1 - low).toNat :=
        Nat.log_pos one_lt_two (by omega)
      simp only [Nat.log2_eq_log_two] at ih ⊢
      omega
  | case4 low high h mid_value hget hne hge ih =>
    rw [bsLoopCount]
    simp only [h, ↓reduceDIte, hget, hne, ↓reduceIte, hge]
    rcases Nat.lt_or_ge (high + 1 - low).toNat 2 with hs | hs
    · have hz : bsLoopCount sorted_list target low ((low + high) / 2 - 1) = 0 :=
        bsLoopCount_stop sorted_list target low _ (by omega)
      rw [hz]
      omega
    · have hhalf : ((low + high) / 2 - 1 + 1 - low).toNat ≤
          (high + 1 - low).toNat / 2 := by omega
      have hmono : Nat.log 2 ((low + high) / 2 - 1 + 1 - low).toNat ≤
          Nat.log 2 ((high + 1 - low).toNat / 2) := Nat.log_mono_right hhalf
      have hdiv := Nat.log_div_base 2 (high + 1 - low).toNat
      have hpos : 0 < Nat.log 2 (high + 1 - low).toNat :=
        Nat.log_pos one_lt_two (by omega)
      simp only [Nat.log2_eq_log_two] at ih ⊢
      omega
  | case5 low high h =>
    rw [bsLoopCount_stop sorted_list target low high h]
    omega

/-- The spec's overflow-guarded midpoint `low + (high - low) / 2` agrees with
the source's `(low + high) // 2`, so the two loops agree everywhere. -/
theorem bsLoopSpec_eq_bsLoop (sorted_list : List Int) (target : Int) :
    ∀ low high : Int,
      bsLoopSpec sorted_list target low high = bsLoop sorted_list target low high := by
  intro low high
  induction low, high using bsLoopSpec.induct sorted_list target with
  | case1 low high h hget =>
    have hmid : low + (high - low) / 2 = (low + high) / 2 := by omega
    rw [hmid] at hget
    rw [bsLoopSpec, bsLoop]
    simp only [hmid, h, ↓reduceDIte, hget]
  | case2 low high h hget =>
    have hmid : low + (high - low) / 2 = (low + high) / 2 := by omega
    rw [hmid] at hget
    rw [bsLoopSpec, bsLoop]
    simp only [hmid, h, ↓reduceDIte, hget, ↓reduceIte]
  | case3 low high h mid_value hget hne hlt ih =>
    have hmid : low + (high - low) / 2 = (low + high) / 2 := by omega
    rw [hmid] at hget ih
    rw [bsLoopSpec, bsLoop]
    simp only [hmid, h, ↓reduceDIte, hget, hne, ↓reduceIte, hlt]
    exact ih
  | case4 low high h mid_value hget hne hge ih =>
    have hmid : low + (high - low) / 2 = (low + high) / 2 := by omega
    rw [hmid] at hget ih
    rw [bsLoopSpec, bsLoop]
    simp only [hmid, h, ↓reduceDIte, hget, hne, ↓reduceIte, hge]
    exact ih
  | case5 low high h =>
    rw [bsLoopSpec, bsLoop]
    simp only [h, ↓reduceDIte]

/-- The state-threading loop returns the same answer as the pure loop and
leaves the sequence untouched in every branch. -/
theorem bsLoopS_eq (target : Int) :
    ∀ (low high : Int) (s : List Int),
      bsLoopS target low high s = (bsLoop s target low high, s) := by
  intro low high s
  induction low, high, s using bsLoopS.induct target with
  | case1 low high s h hget =>
    rw [bsLoopS, bsLoop]
    simp only [h, ↓reduceDIte, hget]
  | case2 low high s h hget =>
    rw [bsLoopS, bsLoop]
    simp only [h, ↓reduceDIte, hget, ↓reduceIte]
  | case3 low high s h mid_value hget hne hlt ih =>
    rw [bsLoopS, bsLoop]
    simp only [h, ↓reduceDIte, hget, hne, ↓reduceIte, hlt]
    exact ih
  | case4 low high s h mid_value hget hne hge ih =>
    rw [bsLoopS, bsLoop]
    simp only [h, ↓reduceDIte, hget, hne, ↓reduceIte, hge]
    exact ih
  | case5 low high s h =>
    rw [bsLoopS, bsLoop]
    simp only [h, ↓reduceDIte]

/-! ## Claim theorems -/

/-- C1: for every sequence sorted in non-decreasing order and every in-range
index `i`, `binary_search_iterative(S, S[i])` returns some index `j` with
`S[j] == S[i]` — it never returns the not-found signal when the target
occurs in the sequence. -/
theorem binary_search_finds_present (sorted_list : List Int)
    (hs : sorted_list.Sorted (· ≤ ·)) (i : Nat) (hi : i < sorted_list.length) :
    ∃ j : Nat, ∃ hj : j < sorted_list.length,
      binary_search_iterative sorted_list (sorted_list.get ⟨i, hi⟩) = some (j : Int) ∧
      sorted_list.get ⟨j, hj⟩ = sorted_list.get ⟨i, hi⟩ := by
  obtain ⟨j, hj, hj0, hjl, hjt⟩ := bsLoop_complete sorted_list
    (sorted_list.get ⟨i, hi⟩) hs 0 ((sorted_list.length : Int) - 1)
    le_rfl (by omega) ⟨i, hi, by omega, by omega, rfl⟩
  have hjn : j.toNat < sorted_list.length := by omega
  refine ⟨j.toNat, hjn, ?_, ?_⟩
  · rw [binary_search_iterative, hj]
    congr 1
    omega
  · rw [List.getElem?_eq_getElem hjn] at hjt
    simpa using hjt

theorem binary_search_finds_present_witness :
    ∃ j : Nat, ∃ hj : j < ([1, 3, 5] : List Int).length,
      binary_search_iterative [1, 3, 5] (([1, 3, 5] : List Int).get ⟨1, by decide⟩) =
        some (j : Int) ∧
      ([1, 3, 5] : List Int).get ⟨j, hj⟩ = ([1, 3, 5] : List Int).get ⟨1, by decide⟩ :=
  binary_search_finds_present [1, 3, 5] (by decide) 1 (by decide)

/-- C2: for every sequence sorted in non-decreasing order and every value not
occurring in it, `binary_search_iterative` returns the not-found signal `-1`. -/
theorem binary_search_absent (sorted_list : List Int) (target : Int)
    (hs : sorted_list.Sorted (· ≤ ·)) (hmem : target ∉ sorted_list) :
    binary_search_iterative sorted_list target = some (-1) := by
  obtain ⟨r, hr, hcase⟩ := bsLoop_sound sorted_list target 0
    ((sorted_list.length : Int) - 1) le_rfl (by omega)
  rcases hcase with rfl | ⟨h1, h2, h3⟩
  · rwa [binary_search_iterative]
  · exact absurd (List.getElem?_mem h3) hmem

theorem binary_search_absent_witness :
    binary_search_iterative [1, 3] 2 = some (-1) :=
  binary_search_absent [1, 3] 2 (by decide) (by decide)

/-- C3: on the empty sequence, `binary_search_iterative` returns the
not-found signal `-1` for every target. -/
theorem binary_search_empty (target : Int) :
    binary_search_iterative [] target = some (-1) := by
  rw [binary_search_iterative, bsLoop]
  norm_num

/-- C4: on a sorted sequence, the result is a normal return whose value is
either the not-found signal `-1` or an index in `[0, length-1]` whose
element equals the target (in particular, with duplicated target values any
returned index points at an element equal to the target). -/
theorem binary_search_result_valid (sorted_list : List Int) (target : Int)
    (hs : sorted_list.Sorted (· ≤ ·)) :
    ∃ r : Int, binary_search_iterative sorted_list target = some r ∧
      (r = -1 ∨ (0 ≤ r ∧ r.toNat < sorted_list.length ∧
        sorted_list[r.toNat]? = some target)) := by
  obtain ⟨r, hr, hcase⟩ := bsLoop_sound sorted_list target 0
    ((sorted_list.length : Int) - 1) le_rfl (by omega)
  refine ⟨r, by rw [binary_search_iterative]; exact hr, ?_⟩
  rcases hcase with hc | ⟨h1, h2, h3⟩
  · exact Or.inl hc
  · exact Or.inr ⟨h1, by omega, h3⟩

theorem binary_search_result_valid_witness :
    ∃ r : Int, binary_search_iterative [1, 3, 3] 3 = some r ∧
      (r = -1 ∨ (0 ≤ r ∧ r.toNat < ([1, 3, 3] : List Int).length ∧
        ([1, 3, 3] : List Int)[r.toNat]? = some 3)) :=
  binary_search_result_valid [1, 3, 3] 3 (by decide)

/-- C5: on every finite sequence the search terminates with a normal result
(the loop is well-founded by construction, its recursion measure being the
interval size), and the number of loop iterations is at most
`⌊log₂ n⌋ + 1` where `n` is the sequence length. -/
theorem binary_search_terminates_in_log (sorted_list : List Int) (target : Int) :
    (∃ r : Int, binary_search_iterative sorted_list target = some r) ∧
    bsLoopCount sorted_list target 0 ((sorted_list.length : Int) - 1) ≤
      Nat.log2 sorted_list.length + 1 := by
  constructor
  · obtain ⟨r, hr, _⟩ := bsLoop_sound sorted_list target 0
      ((sorted_list.length : Int) - 1) le_rfl (by omega)
    exact ⟨r, by rw [binary_search_iterative]; exact hr⟩
  · have hle := bsLoopCount_le sorted_list target 0 ((sorted_list.length : Int) - 1)
    have hlen : ((sorted_list.length : Int) - 1 + 1 - 0).toNat = sorted_list.length := by
      omega
    rwa [hlen] at hle

/-- C6: the code refines the spec's design-level algorithm: bounds `0` and
`length - 1`, midpoint the floor of `(low + high) / 2` (equivalently the
spec's guarded `low + (high - low) / 2`), return on equality, `low = mid + 1`
on less, `high = mid - 1` on greater, not-found once `low > high`. -/
theorem binary_search_matches_spec (sorted_list : List Int) (target : Int) :
    binary_search_iterative sorted_list target = binary_search_spec sorted_list target := by
  rw [binary_search_iterative, binary_search_spec, bsLoopSpec_eq_bsLoop]

/-- C7: the search is deterministic and stateless: calling it again with the
same target on the sequence state left behind by a first call gives the
identical result and state (two-run equality; no hidden state). -/
theorem binary_search_idempotent (sorted_list : List Int) (target : Int) :
    binary_searchS (binary_searchS sorted_list target).2 target =
      binary_searchS sorted_list target := by
  have h2 : (binary_searchS sorted_list target).2 = sorted_list := by
    rw [binary_searchS, bsLoopS_eq]
  rw [h2]

/-- C8: the search mutates nothing: the sequence after a call is
element-for-element the one passed in, and the result coincides with the
pure function of the two arguments. -/
theorem binary_search_no_mutation (sorted_list : List Int) (target : Int) :
    (binary_searchS sorted_list target).2 = sorted_list ∧
    (binary_searchS sorted_list target).1 = binary_search_iterative sorted_list target := by
  rw [binary_searchS, binary_search_iterative, bsLoopS_eq]
  exact ⟨rfl, rfl⟩

/-- C9: the spec's concrete examples: on `[1, 3, 5, 7, 9, 11]` target `7`
yields index `3` and target `4` yields not-found; on `[]` target `0` yields
not-found. -/
theorem binary_search_examples :
    binary_search_iterative [1, 3, 5, 7, 9, 11] 7 = some 3 ∧
    binary_search_iterative [1, 3, 5, 7, 9, 11] 4 = some (-1) ∧
    binary_search_iterative [] 0 = some (-1) := by
  refine ⟨?_, ?_, ?_⟩ <;> simp [binary_search_iterative, bsLoop, pyGet]

/-- C10: on every finite sequence, sorted or not, the search returns
normally (`some r`, never the `IndexError` outcome `none`, since every
`sorted_list[mid]` read happens in bounds), and whenever `r` is a
non-negative index the element there equals the target. -/
theorem binary_search_safe_access (sorted_list : List Int) (target : Int) :
    ∃ r : Int, binary_search_iterative sorted_list target = some r ∧
      (0 ≤ r → ∃ hr : r.toNat < sorted_list.length,
        sorted_list.get ⟨r.toNat, hr⟩ = target) := by
  obtain ⟨r, hr, hcase⟩ := bsLoop_sound sorted_list target 0
    ((sorted_list.length : Int) - 1) le_rfl (by omega)
  refine ⟨r, by rw [binary_search_iterative]; exact hr, ?_⟩
  intro h0
  rcases hcase with rfl | ⟨h1, h2, h3⟩
  · omega
  · have hlt : r.toNat < sorted_list.length := by omega
    rw [List.getElem?_eq_getElem hlt] at h3
    exact ⟨hlt, by simpa using h3⟩
